import Mathlib

/-!
Verification development for the bulk repository: a shallow embedding of the
cooperative scan kernels (src/unnamed/part_000) and of the merge kernels
(src/merge.cu), together with theorems settling the specified properties.

Modelling conventions.  A thread group of `groupsize` agents running in
lockstep between barriers is modelled by computing, per barrier phase, the
new contents of the shared arrays from the old contents: inside one phase of
the source all reads precede all writes (the code places a barrier between
the read part and the write part of each round), so a phase is a pure
function on the array state.  Shared arrays are total functions `Nat -> A`;
uninitialized memory is an arbitrary quantified function.  Per-agent
registers are tracked explicitly where the source keeps values in registers
across phases.  Loops whose trip count is data-dependent are written with an
explicit fuel argument that provably dominates the trip count (the offset of
the logarithmic scan loop at least doubles each round, the tile loop of the
big scan consumes at least one input element per iteration, and the merge
loop is bounded by its `bound` parameter), keeping every definition
kernel-computable.
-/

namespace Bulk

universe u

variable {α : Type u} {β : Type u}

/-- One combining round of `small_inclusive_scan_n` (part_000 lines 52-67):
every agent `tid` with `offset <= tid < n` combines `first[tid - offset]`
into its running value and writes it back; the two `g.wait()` calls separate
all reads of the round from all writes, so the round is a pure update of the
array. -/
def hsRound (op : α → α → α) (n s : ℕ) (d : ℕ → α) : ℕ → α :=
  fun i => if s ≤ i ∧ i < n then op (d (i - s)) (d i) else d i

/-- The round loop of `small_inclusive_scan_n`:
`for(offset = 1; offset < n; offset += offset)`.  The fuel argument bounds
the number of rounds; since the offset at least doubles each round, any fuel
with `n <= offset + fuel` suffices and the `fuel = 0` fallthrough is
unreachable from the top-level entry. -/
def hsGo (op : α → α → α) (n : ℕ) : ℕ → ℕ → (ℕ → α) → ℕ → α
  | 0, _, d => d
  | fuel + 1, s, d => if s < n then hsGo op n fuel (s + s) (hsRound op n s d) else d

/-- `small_inclusive_scan_n` (part_000 lines 36-68): in-place logarithmic
inclusive scan of the first `n` slots of the array; slots at index `>= n`
are untouched. -/
def small_inclusive_scan_n (op : α → α → α) (n : ℕ) (d : ℕ → α) : ℕ → α :=
  hsGo op n n 1 d

/-- `small_exclusive_scan_n` (part_000 lines 71-110): agent 0 folds `init`
into slot 0, the inclusive scan runs, the pre-shift total `first[n-1]` (or
`init` when `n = 0`) is returned, and each agent `tid < n` then writes
`init` (for `tid = 0`, or the dead guard `tid - 1 >= n`) or `first[tid-1]`
back to its slot. -/
def sxsnIncl (op : α → α → α) (n : ℕ) (init : α) (d : ℕ → α) : ℕ → α :=
  small_inclusive_scan_n op n (fun i => if 0 < n ∧ i = 0 then op init (d i) else d i)

def small_exclusive_scan_n (op : α → α → α) (n : ℕ) (init : α) (d : ℕ → α) :
    (ℕ → α) × α :=
  (fun i =>
    if i < n then (if i = 0 ∨ n ≤ i - 1 then init else sxsnIncl op n init d (i - 1))
    else sxsnIncl op n init d i,
   if 0 < n then sxsnIncl op n init d (n - 1) else init)

/-- The round loop of `small_inplace_exclusive_scan_with_buffer`
(part_000 lines 135-148).  State: the per-agent registers `x`, and the two
buffers with `ping` holding the most current data.  Each round reads
`ping[tid - offset]` (written in the previous round, separated by the
barrier at the end of that round), swaps the buffers, and writes every
agent register to the new ping at the agent positions `< size`; positions
`>= size` of the new ping keep the old pong contents.  Fuel as in `hsGo`. -/
def ppGo (op : α → α → α) (size : ℕ) :
    ℕ → ℕ → (ℕ → α) → (ℕ → α) → (ℕ → α) → ((ℕ → α) × (ℕ → α) × (ℕ → α))
  | 0, _, x, ping, pong => (x, ping, pong)
  | fuel + 1, s, x, ping, pong =>
    if s < size then
      let x2 : ℕ → α := fun i => if s ≤ i then op (ping (i - s)) (x i) else x i
      let ping2 : ℕ → α := fun i => if i < size then x2 i else pong i
      ppGo op size fuel (s + s) x2 ping2 ping
    else (x, ping, pong)

/-- `small_inplace_exclusive_scan_with_buffer<size>` (part_000 lines
113-161): agent 0 folds `init` into `first[0]`, every agent loads its slot
into a register, the ping-pong rounds run, the aggregate `ping[size - 1]` is
returned, and every agent writes `init` (agent 0) or `ping[tid - 1]` back to
`first[tid]`.  `buffer` is the initial contents of the second (pong) buffer;
it is never read before being overwritten. -/
def ppPing (op : α → α → α) (size : ℕ) (first : ℕ → α) (init : α)
    (buffer : ℕ → α) : ℕ → α :=
  (ppGo op size size 1 (fun i => if i = 0 then op init (first 0) else first i)
    (fun i => if i = 0 then op init (first 0) else first i) buffer).2.1

def small_inplace_exclusive_scan_with_buffer (op : α → α → α) (size : ℕ)
    (first : ℕ → α) (init : α) (buffer : ℕ → α) : (ℕ → α) × α :=
  (fun i =>
    if i < size then
      (if i = 0 then init else ppPing op size first init buffer (i - 1))
    else (if i = 0 then op init (first 0) else first i),
   ppPing op size first init buffer (size - 1))

/-- `local_size` of one agent inside a tile (part_000 line 205):
`max(0, min(grainsize, partition_size - grainsize * tid))`; natural-number
subtraction supplies the clamp at 0. -/
def localSize (grainsize p tid : ℕ) : ℕ := min grainsize (p - grainsize * tid)

/-- The `grainsize` contiguous elements of the staged tile owned by agent
`tid` (the `local_inputs` registers, part_000 lines 211-220); truncated at
the end of the tile. -/
def segOf (grainsize : ℕ) (tile : List α) (tid : ℕ) : List α :=
  (tile.drop (grainsize * tid)).take grainsize

/-- The fused copy-and-accumulate of part_000 lines 212-220: a left fold of
a nonempty segment seeded by its first element (`x = i ? op(x, v) : v`).
The default is returned for an empty segment, where the source leaves `x`
uninitialized and unwritten. -/
def segFold (op : α → α → α) (dflt : α) : List α → α
  | [] => dflt
  | v :: rest => rest.foldl op v

/-- The per-agent sums array `s_sums` as it stands after part_000 lines
222-225: agents with a nonempty segment store their segment fold; slots of
agents with no data keep whatever the memory held before (`mem`). -/
def tileSums (op : α → α → α) (grainsize : ℕ) (mem : ℕ → α) (tile : List α) :
    ℕ → α :=
  fun tid =>
    if 0 < localSize grainsize tile.length tid
    then segFold op (mem tid) (segOf grainsize tile tid) else mem tid

/-- The per-agent re-walk loop (part_000 lines 239-249 and 332-342): starting
from the agent prefix `x`, inclusive combines then writes, exclusive writes
then combines; this flag is the only difference between the two scans. -/
def rewalk (op : α → α → α) (incl : Bool) : α → List α → List α
  | _, [] => []
  | x, v :: rest =>
    if incl then op x v :: rewalk op incl (op x v) rest
    else x :: rewalk op incl (op x v) rest

/-- One iteration of the tile loop of `inclusive_scan_with_buffer` /
`exclusive_scan_with_buffer` (part_000 lines 193-254 and 287-347) on the
staged tile: build `s_sums`, exclusive-scan them seeded with the running
carry (the pong buffer is the second half of the sums region, `mem`
shifted by `groupsize`), re-walk each segment from the agent prefix, and
join the per-agent output blocks.  Returns the tile output, the new carry,
and the new contents of the sums region (the exclusive scan overwrote the
first `groupsize` slots; the scribbled pong half is never observed by a
later read, so it is carried unchanged). -/
def tileScanned (op : α → α → α) (groupsize grainsize : ℕ) (carry : α)
    (mem : ℕ → α) (tile : List α) : (ℕ → α) × α :=
  small_inplace_exclusive_scan_with_buffer op groupsize
    (tileSums op grainsize mem tile) carry (fun j => mem (groupsize + j))

def scanTile (op : α → α → α) (groupsize grainsize : ℕ) (incl : Bool)
    (carry : α) (mem : ℕ → α) (tile : List α) : List α × α × (ℕ → α) :=
  (((List.range groupsize).map
      (fun tid => rewalk op incl ((tileScanned op groupsize grainsize carry mem tile).1 tid)
        (segOf grainsize tile tid))).flatten,
   (tileScanned op groupsize grainsize carry mem tile).2,
   fun i => if i < groupsize
            then (tileScanned op groupsize grainsize carry mem tile).1 i else mem i)

/-- The tile loop `for(; first < last; first += elements_per_group, ...)`
of the two `*_scan_with_buffer` functions.  Each iteration consumes
`partition_size = min(groupsize * grainsize, last - first)` elements, so
fuel equal to the input length dominates the trip count; the guard
`0 < groupsize * grainsize` records the caller invariant without which the
source loop would not advance. -/
def scanGo (op : α → α → α) (groupsize grainsize : ℕ) (incl : Bool) :
    ℕ → List α → α → (ℕ → α) → List α × α
  | 0, _, carry, _ => ([], carry)
  | fuel + 1, l, carry, mem =>
    if 0 < groupsize * grainsize ∧ 0 < l.length then
      let p := min (groupsize * grainsize) l.length
      let t := scanTile op groupsize grainsize incl carry mem (l.take p)
      let r := scanGo op groupsize grainsize incl fuel (l.drop p) t.2.1 t.2.2
      (t.1 ++ r.1, r.2)
    else ([], carry)

/-- `inclusive_scan_with_buffer` (part_000 lines 165-255), also the body of
the `init`-taking public `inclusive_scan` (lines 361-386; the `is_shared`
branch calls the same function either way).  Besides the written outputs,
the final value of the threaded `carry_in` is exposed as the second
component.  `mem` is the initial contents of the scratch sums region. -/
def inclusive_scan_with_buffer (op : α → α → α) (groupsize grainsize : ℕ)
    (l : List α) (carry_in : α) (mem : ℕ → α) : List α × α :=
  scanGo op groupsize grainsize true l.length l carry_in mem

/-- `exclusive_scan_with_buffer` (part_000 lines 258-348), also the body of
the public `exclusive_scan` (lines 418-449). -/
def exclusive_scan_with_buffer (op : α → α → α) (groupsize grainsize : ℕ)
    (l : List α) (carry_in : α) (mem : ℕ → α) : List α × α :=
  scanGo op groupsize grainsize false l.length l carry_in mem

/-- The public `inclusive_scan` overload without `init` (part_000 lines
389-415): on a nonempty range, agent 0 writes the first input to the first
output and the `init`-taking scan runs on the rest seeded with that first
input. -/
def inclusive_scan_from_first (op : α → α → α) (groupsize grainsize : ℕ)
    (l : List α) (mem : ℕ → α) : List α :=
  match l with
  | [] => []
  | x :: rest => x :: (inclusive_scan_with_buffer op groupsize grainsize rest x mem).1

/-- The step loop of `bounded_merge` (merge.cu lines 48-98).  `d1 i` and
`d2 i` are the input ranges, `a` and `b` the cached registers.  Exactly as
in the source, the one-sided branches emit the register and advance the
index without reloading the register; only the branch where neither range
is exhausted reloads after advancing (guarded by the new index being in
range).  Fuel is the `bound` template parameter. -/
def bmGo (comp : α → α → Bool) (d1 d2 : ℕ → α) (n1 n2 : ℕ) :
    ℕ → ℕ → ℕ → α → α → List α
  | 0, _, _, _, _ => []
  | fuel + 1, idx1, idx2, a, b =>
    if n1 ≤ idx1 ∧ n2 ≤ idx2 then []
    else if n1 ≤ idx1 then b :: bmGo comp d1 d2 n1 n2 fuel idx1 (idx2 + 1) a b
    else if n2 ≤ idx2 then a :: bmGo comp d1 d2 n1 n2 fuel (idx1 + 1) idx2 a b
    else if comp b a = false then
      a :: bmGo comp d1 d2 n1 n2 fuel (idx1 + 1) idx2
        (if idx1 + 1 < n1 then d1 (idx1 + 1) else a) b
    else
      b :: bmGo comp d1 d2 n1 n2 fuel idx1 (idx2 + 1) a
        (if idx2 + 1 < n2 then d2 (idx2 + 1) else b)

/-- `bounded_merge<bound>` (merge.cu lines 19-111) on two list inputs.  The
registers start at the first element of each nonempty range; `junk1` and
`junk2` stand for the uninitialized registers of empty ranges (they are
never emitted: an empty range is exhausted from the start, and the branch
emitting a register of the other range is then never taken for it). -/
def bounded_merge (comp : α → α → Bool) (bound : ℕ) (l1 l2 : List α)
    (junk1 junk2 : α) : List α :=
  bmGo comp (fun i => l1.getD i junk1) (fun i => l2.getD i junk2)
    l1.length l2.length bound 0 0 (l1.headD junk1) (l2.headD junk2)

/-- Modelled from the spec: the reference stable two-way merge, used only to
define the external merge-path search below (Section 6: the search is a
consumed collaborator, `mgpu::MergePath`, whose code is not part of this
repository).  When neither list is exhausted it takes from the first list
exactly when the head of the second does not compare strictly below it. -/
def mergeSpecGo (comp : α → α → Bool) : ℕ → List α → List α → List α
  | 0, _, _ => []
  | _ + 1, [], l2 => l2
  | _ + 1, x :: xs, [] => x :: xs
  | fuel + 1, x :: xs, y :: ys =>
    if comp y x = false then x :: mergeSpecGo comp fuel xs (y :: ys)
    else y :: mergeSpecGo comp fuel (x :: xs) ys

/-- Modelled from the spec: `mgpu::MergePath` (Section 6 and glossary), the
co-rank of output diagonal `d`: the number of elements contributed by the
first range to the first `d` outputs of the stable merge — the partition of
the two sorted ranges into prefix lengths that together yield exactly `d`
sorted elements. -/
def mergePath (comp : α → α → Bool) (l1 l2 : List α) (d : ℕ) : ℕ :=
  ((mergeSpecGo (fun x y : α × ℕ => comp x.1 y.1) (l1.length + l2.length)
      (l1.map (fun v => (v, 0))) (l2.map (fun v => (v, 1)))).take d).countP
    (fun t => t.2 == 0)

/-- The output diagonal assigned to one agent in `bounded_inplace_merge`
(merge.cu line 125): `diag = grainsize * threadIdx.x`. -/
def bim_diag (grainsize agent : ℕ) : ℕ := grainsize * agent

/-- The number of outputs one agent of `bounded_inplace_merge` writes back
(merge.cu line 146): `max(0, min(grainsize, n1 + n2 - local_offset))`. -/
def bim_local_size (grainsize total agent : ℕ) : ℕ :=
  min grainsize (total - grainsize * agent)

/-- Modelled from the spec: `bulk::copy_n` (Section 6, a consumed
collaborator) cooperatively copies `n` staged elements to the output,
writing each destination position `base, base + 1, ..., base + n - 1`
exactly once (compare the serial `copy_n_with_grainsize`, part_000 lines
17-33, which guards every write by `i < last - first`). -/
def copy_n_writes (base n : ℕ) : List ℕ := List.range' base n

/-- The sequence of output positions written by the tile loop of the scans:
tile `k` stages `min(groupsize * grainsize, remaining)` results and copies
them back to the output at offset `k * groupsize * grainsize`. -/
def scanWritesGo (epg : ℕ) : ℕ → ℕ → ℕ → List ℕ
  | 0, _, _ => []
  | fuel + 1, base, remaining =>
    if 0 < epg ∧ 0 < remaining then
      copy_n_writes base (min epg remaining) ++
        scanWritesGo epg fuel (base + epg) (remaining - min epg remaining)
    else []

/-- All output positions written by a tiled scan over an input of length
`len` with `epg = groupsize * grainsize` elements per tile. -/
def scanWrites (epg len : ℕ) : List ℕ := scanWritesGo epg len 0 len

/-- The number of iterations of the tile loop. -/
def scanNumTilesGo (epg : ℕ) : ℕ → ℕ → ℕ
  | 0, _ => 0
  | fuel + 1, remaining =>
    if 0 < epg ∧ 0 < remaining then
      scanNumTilesGo epg fuel (remaining - min epg remaining) + 1
    else 0

/-- The number of tile iterations a scan over `len` elements performs. -/
def scanNumTiles (epg len : ℕ) : ℕ := scanNumTilesGo epg len len

/-! ### Lemmas about the bounded merge loop -/

lemma bmGo_length (comp : α → α → Bool) (d1 d2 : ℕ → α) (n1 n2 : ℕ) :
    ∀ (fuel idx1 idx2 : ℕ) (a b : α),
      (bmGo comp d1 d2 n1 n2 fuel idx1 idx2 a b).length
        = min fuel ((n1 - idx1) + (n2 - idx2))
  | 0, idx1, idx2, a, b => by simp [bmGo]
  | fuel + 1, idx1, idx2, a, b => by
    simp only [bmGo]
    by_cases h12 : n1 ≤ idx1 ∧ n2 ≤ idx2
    · rw [if_pos h12]; simp; omega
    · rw [if_neg h12]
      by_cases h1 : n1 ≤ idx1
      · have h2 : ¬ n2 ≤ idx2 := fun h => h12 ⟨h1, h⟩
        rw [if_pos h1]
        simp only [List.length_cons, bmGo_length comp d1 d2 n1 n2 fuel]
        omega
      · rw [if_neg h1]
        by_cases h2 : n2 ≤ idx2
        · rw [if_pos h2]
          simp only [List.length_cons, bmGo_length comp d1 d2 n1 n2 fuel]
          omega
        · rw [if_neg h2]
          by_cases hc : comp b a = false
          · rw [if_pos hc]
            simp only [List.length_cons, bmGo_length comp d1 d2 n1 n2 fuel]
            omega
          · rw [if_neg hc]
            simp only [List.length_cons, bmGo_length comp d1 d2 n1 n2 fuel]
            omega

/-! ### Lemmas for the merge-path co-rank and the per-agent output tiling -/

lemma mergePath_le (comp : α → α → Bool) (l1 l2 : List α) (d : ℕ) :
    mergePath comp l1 l2 d ≤ d := by
  unfold mergePath
  refine le_trans (List.countP_le_length _) ?_
  rw [List.length_take]
  exact min_le_left _ _

lemma mergePath_mono (comp : α → α → Bool) (l1 l2 : List α) {d d' : ℕ}
    (h : d ≤ d') : mergePath comp l1 l2 d ≤ mergePath comp l1 l2 d' := by
  unfold mergePath
  apply List.Sublist.countP_le
  have hs := List.take_sublist d
    ((mergeSpecGo (fun x y : α × ℕ => comp x.1 y.1) (l1.length + l2.length)
      (l1.map (fun v => (v, 0))) (l2.map (fun v => (v, 1)))).take d')
  rwa [List.take_take, min_eq_left h] at hs

/-- The per-agent intervals `[grn * a, grn * a + localSize a)` tile the
output range `[0, min (grn * k) p)` with no gap and no overlap. -/
lemma join_blocks (grn p : ℕ) :
    ∀ k, ((List.range k).map
        (fun tid => List.range' (grn * tid) (min grn (p - grn * tid)))).flatten
      = List.range' 0 (min (grn * k) p)
  | 0 => by simp
  | k + 1 => by
    rw [List.range_succ, List.map_append, List.flatten_append, join_blocks grn p k]
    have hsucc : grn * (k + 1) = grn * k + grn := Nat.mul_succ grn k
    by_cases h : p ≤ grn * k
    · have h1 : min grn (p - grn * k) = 0 := by omega
      have h2 : min (grn * k) p = p := by omega
      have h3 : min (grn * (k + 1)) p = p := by omega
      simp [h1, h2, h3]
    · have h2 : min (grn * k) p = grn * k := by omega
      rw [h2]
      have happ := List.range'_append_1 0 (grn * k) (min grn (p - grn * k))
      rw [Nat.zero_add] at happ
      simp only [List.map_cons, List.map_nil, List.flatten_cons, List.flatten_nil,
        List.append_nil, happ]
      congr 1
      omega

/-! ### Lemmas for the write trace of the tiled scans -/

lemma scanWritesGo_eq (epg : ℕ) (hepg : 0 < epg) :
    ∀ (fuel base remaining : ℕ), remaining ≤ fuel →
      scanWritesGo epg fuel base remaining = List.range' base remaining
  | 0, base, remaining, h => by
    have hr : remaining = 0 := by omega
    simp [scanWritesGo, hr]
  | fuel + 1, base, remaining, h => by
    by_cases hr : 0 < remaining
    · simp only [scanWritesGo]
      rw [if_pos ⟨hepg, hr⟩]
      unfold copy_n_writes
      rw [scanWritesGo_eq epg hepg fuel (base + epg)
        (remaining - min epg remaining) (by omega)]
      by_cases hc : epg ≤ remaining
      · have h1 : min epg remaining = epg := by omega
        rw [h1, List.range'_append_1 base epg (remaining - epg)]
        congr 1
        omega
      · have h1 : min epg remaining = remaining := by omega
        rw [h1]
        simp
    · have hr0 : remaining = 0 := by omega
      simp [scanWritesGo, hr0]

lemma scanWrites_eq (epg len : ℕ) (hepg : 0 < epg) :
    scanWrites epg len = List.range len := by
  unfold scanWrites
  rw [scanWritesGo_eq epg hepg len 0 len (le_refl len), List.range_eq_range']

/-! ### Fold helpers -/

lemma foldl_op_assoc (op : α → α → α)
    (hA : ∀ a b c, op (op a b) c = op a (op b c)) :
    ∀ (l : List α) (x y : α), l.foldl op (op x y) = op x (l.foldl op y)
  | [], _, _ => rfl
  | v :: t, x, y => by
    simp only [List.foldl_cons]
    rw [hA x y v, foldl_op_assoc op hA t x (op y v)]

/-- The fold of the window `d j, d (j + 1), ..., d i` in left-to-right
order, seeded by its first element: the value held by agent `i` after the
rounds of the logarithmic scan have accumulated a window of that width. -/
def winFold (op : α → α → α) (d : ℕ → α) (j i : ℕ) : α :=
  ((List.range' (j + 1) (i - j)).map d).foldl op (d j)

lemma winFold_self (op : α → α → α) (d : ℕ → α) (i : ℕ) :
    winFold op d i i = d i := by
  simp [winFold]

lemma winFold_split (op : α → α → α)
    (hA : ∀ a b c, op (op a b) c = op a (op b c)) (d : ℕ → α)
    {j m i : ℕ} (h1 : j ≤ m) (h2 : m < i) :
    winFold op d j i = op (winFold op d j m) (winFold op d (m + 1) i) := by
  unfold winFold
  have hsplit : List.range' (j + 1) (i - j)
      = List.range' (j + 1) (m - j) ++ List.range' (m + 1) (i - m) := by
    have happ := List.range'_append_1 (j + 1) (m - j) (i - m)
    rw [show j + 1 + (m - j) = m + 1 by omega] at happ
    rw [show i - m + (m - j) = i - j by omega] at happ
    exact happ.symm
  rw [hsplit, List.map_append, List.foldl_append]
  rw [show i - m = (i - m - 1) + 1 by omega, List.range'_succ,
    List.map_cons, List.foldl_cons, foldl_op_assoc op hA]
  rw [show m + 1 + 1 = m + 2 by omega, show i - m - 1 = i - (m + 1) by omega]

lemma winFold_fold_init (op : α → α → α) (init : α) (d d1 : ℕ → α)
    (h0 : d1 0 = op init (d 0)) (hrest : ∀ i, 0 < i → d1 i = d i) (i : ℕ) :
    winFold op d1 0 i = ((List.range (i + 1)).map d).foldl op init := by
  unfold winFold
  have hmap : (List.range' (0 + 1) (i - 0)).map d1 = (List.range' 1 i).map d := by
    rw [Nat.zero_add, Nat.sub_zero]
    refine List.map_congr_left (fun a ha => ?_)
    have hmem := List.mem_range'_1.1 ha
    exact hrest a (by omega)
  rw [hmap, h0, List.range_eq_range', List.range'_succ, List.map_cons,
    List.foldl_cons, Nat.zero_add]

/-! ### Correctness of the logarithmic round loop -/

lemma hsGo_correct (op : α → α → α)
    (hA : ∀ a b c, op (op a b) c = op a (op b c)) (n : ℕ) (d0 : ℕ → α) :
    ∀ (fuel s : ℕ) (d : ℕ → α), 0 < s → n ≤ s + fuel →
      (∀ i, i < n → d i = winFold op d0 (i + 1 - s) i) →
      ∀ i, i < n → hsGo op n fuel s d i = winFold op d0 0 i
  | 0, s, d, _, hn, hinv, i, hi => by
    simp only [hsGo]
    have h0 : i + 1 - s = 0 := by omega
    have hv := hinv i hi
    rwa [h0] at hv
  | fuel + 1, s, d, hs, hn, hinv, i, hi => by
    simp only [hsGo]
    by_cases hlt : s < n
    · rw [if_pos hlt]
      refine hsGo_correct op hA n d0 fuel (s + s) (hsRound op n s d)
        (by omega) (by omega) ?_ i hi
      intro k hk
      unfold hsRound
      by_cases hks : s ≤ k
      · rw [if_pos ⟨hks, hk⟩, hinv k hk, hinv (k - s) (by omega)]
        rw [winFold_split op hA d0
          (j := k + 1 - (s + s)) (m := k - s) (i := k) (by omega) (by omega)]
        congr 1
        · congr 1
          omega
        · congr 1
          omega
      · rw [if_neg (by omega : ¬ (s ≤ k ∧ k < n)), hinv k hk]
        congr 1
        omega
    · rw [if_neg hlt]
      have h0 : i + 1 - s = 0 := by omega
      have hv := hinv i hi
      rwa [h0] at hv

lemma hsGo_frame (op : α → α → α) (n : ℕ) :
    ∀ (fuel s : ℕ) (d : ℕ → α) (i : ℕ), n ≤ i → hsGo op n fuel s d i = d i
  | 0, _, _, _, _ => rfl
  | fuel + 1, s, d, i, hi => by
    simp only [hsGo]
    by_cases hlt : s < n
    · rw [if_pos hlt, hsGo_frame op n fuel (s + s) _ i hi]
      unfold hsRound
      rw [if_neg (by omega)]
    · rw [if_neg hlt]

lemma small_inclusive_scan_n_correct (op : α → α → α)
    (hA : ∀ a b c, op (op a b) c = op a (op b c)) (n : ℕ) (d : ℕ → α) :
    ∀ i, i < n → small_inclusive_scan_n op n d i = winFold op d 0 i := by
  intro i hi
  refine hsGo_correct op hA n d n 1 d (by omega) (by omega) ?_ i hi
  intro k _
  rw [show k + 1 - 1 = k by omega, winFold_self]

/-! ### Specification of the two small exclusive scans -/

lemma sxsnIncl_correct (op : α → α → α)
    (hA : ∀ a b c, op (op a b) c = op a (op b c)) (n : ℕ) (init : α)
    (d : ℕ → α) : ∀ i, i < n →
      sxsnIncl op n init d i = ((List.range (i + 1)).map d).foldl op init := by
  intro i hi
  unfold sxsnIncl
  rw [small_inclusive_scan_n_correct op hA n _ i hi]
  refine winFold_fold_init op init d _ ?_ ?_ i
  · rw [if_pos ⟨by omega, rfl⟩]
  · intro k hk
    rw [if_neg (by omega)]

lemma small_exclusive_scan_n_out (op : α → α → α)
    (hA : ∀ a b c, op (op a b) c = op a (op b c)) (n : ℕ) (init : α)
    (d : ℕ → α) : ∀ i, i < n →
      (small_exclusive_scan_n op n init d).1 i
        = ((List.range i).map d).foldl op init := by
  intro i hi
  show (if i < n then _ else _) = _
  rw [if_pos hi]
  by_cases hi0 : i = 0
  · subst hi0
    rw [if_pos (Or.inl rfl)]
    simp
  · rw [if_neg (by omega : ¬ (i = 0 ∨ n ≤ i - 1))]
    rw [sxsnIncl_correct op hA n init d (i - 1) (by omega),
      show i - 1 + 1 = i by omega]

lemma small_exclusive_scan_n_total (op : α → α → α)
    (hA : ∀ a b c, op (op a b) c = op a (op b c)) (n : ℕ) (init : α)
    (d : ℕ → α) :
    (small_exclusive_scan_n op n init d).2
      = ((List.range n).map d).foldl op init := by
  show (if 0 < n then _ else _) = _
  by_cases hn : 0 < n
  · rw [if_pos hn, sxsnIncl_correct op hA n init d (n - 1) (by omega),
      show n - 1 + 1 = n by omega]
  · rw [if_neg hn]
    have h0 : n = 0 := by omega
    subst h0
    simp

/-! ### The ping-pong loop agrees with the in-place loop on the agents -/

lemma ppGo_ping_agree (op : α → α → α) (size : ℕ) :
    ∀ (fuel s : ℕ) (x ping pong d : ℕ → α), 0 < s →
      (∀ i, i < size → ping i = x i) → (∀ i, i < size → x i = d i) →
      ∀ i, i < size →
        (ppGo op size fuel s x ping pong).2.1 i = hsGo op size fuel s d i
  | 0, s, x, ping, pong, d, _, hpx, hxd, i, hi => by
    simp only [ppGo, hsGo]
    rw [hpx i hi, hxd i hi]
  | fuel + 1, s, x, ping, pong, d, hs, hpx, hxd, i, hi => by
    simp only [ppGo, hsGo]
    by_cases hlt : s < size
    · rw [if_pos hlt, if_pos hlt]
      refine ppGo_ping_agree op size fuel (s + s) _ _ _ (hsRound op size s d)
        (by omega) (fun k hk => ?_) (fun k hk => ?_) i hi
      · rw [if_pos hk]
      · unfold hsRound
        by_cases hks : s ≤ k
        · rw [if_pos hks, if_pos ⟨hks, hk⟩, hpx (k - s) (by omega),
            hxd (k - s) (by omega), hxd k hk]
        · rw [if_neg hks, if_neg (by omega : ¬ (s ≤ k ∧ k < size)), hxd k hk]
    · rw [if_neg hlt, if_neg hlt]
      show ping i = d i
      rw [hpx i hi, hxd i hi]

lemma ppPing_eq_incl (op : α → α → α) (size : ℕ) (first : ℕ → α) (init : α)
    (buffer : ℕ → α) (hs : 0 < size) :
    ∀ i, i < size →
      ppPing op size first init buffer i = sxsnIncl op size init first i := by
  intro i hi
  unfold ppPing sxsnIncl small_inclusive_scan_n
  refine ppGo_ping_agree op size size 1 _ _ _ _ (by omega)
    (fun k _ => rfl) (fun k _ => ?_) i hi
  by_cases hk0 : k = 0
  · subst hk0
    rw [if_pos rfl, if_pos ⟨hs, rfl⟩]
  · rw [if_neg hk0, if_neg (fun h => hk0 h.2)]

lemma sipxswb_eq_sxsn_out (op : α → α → α) (size : ℕ) (hs : 0 < size)
    (first : ℕ → α) (init : α) (buffer : ℕ → α) :
    ∀ i, i < size →
      (small_inplace_exclusive_scan_with_buffer op size first init buffer).1 i
        = (small_exclusive_scan_n op size init first).1 i := by
  intro i hi
  simp only [small_inplace_exclusive_scan_with_buffer, small_exclusive_scan_n]
  rw [if_pos hi, if_pos hi]
  by_cases hi0 : i = 0
  · subst hi0
    rw [if_pos rfl, if_pos (Or.inl rfl)]
  · rw [if_neg hi0, if_neg (by omega : ¬ (i = 0 ∨ size ≤ i - 1))]
    exact ppPing_eq_incl op size first init buffer hs (i - 1) (by omega)

lemma sipxswb_eq_sxsn_total (op : α → α → α) (size : ℕ) (hs : 0 < size)
    (first : ℕ → α) (init : α) (buffer : ℕ → α) :
    (small_inplace_exclusive_scan_with_buffer op size first init buffer).2
      = (small_exclusive_scan_n op size init first).2 := by
  simp only [small_inplace_exclusive_scan_with_buffer, small_exclusive_scan_n]
  rw [if_pos hs]
  exact ppPing_eq_incl op size first init buffer hs (size - 1) (by omega)

lemma sipxswb_out (op : α → α → α)
    (hA : ∀ a b c, op (op a b) c = op a (op b c)) (size : ℕ) (hs : 0 < size)
    (first : ℕ → α) (init : α) (buffer : ℕ → α) :
    ∀ i, i < size →
      (small_inplace_exclusive_scan_with_buffer op size first init buffer).1 i
        = ((List.range i).map first).foldl op init := by
  intro i hi
  rw [sipxswb_eq_sxsn_out op size hs first init buffer i hi]
  exact small_exclusive_scan_n_out op hA size init first i hi

lemma sipxswb_total (op : α → α → α)
    (hA : ∀ a b c, op (op a b) c = op a (op b c)) (size : ℕ) (hs : 0 < size)
    (first : ℕ → α) (init : α) (buffer : ℕ → α) :
    (small_inplace_exclusive_scan_with_buffer op size first init buffer).2
      = ((List.range size).map first).foldl op init := by
  rw [sipxswb_eq_sxsn_total op size hs first init buffer]
  exact small_exclusive_scan_n_total op hA size init first

/-! ### Claims about the small-group scans -/

/-- Claim C7: for an associative operation, `small_exclusive_scan_n` leaves
slot 0 holding `init` and slot `i` (for `1 ≤ i < n`) holding the
`init`-seeded inclusive fold of the original first `i` elements — agent `i`
gets agent `i - 1` of the inclusive scan, uniformly
`((range i).map d).foldl op init` — and returns the pre-shift total over
all `n` elements; when `n = 0` no slot is written and `init` is returned
(the total conjunct evaluates to `init` at `n = 0` since the fold is
empty). -/
theorem claim7_small_exclusive_scan (op : α → α → α)
    (hA : ∀ a b c, op (op a b) c = op a (op b c)) (n : ℕ) (init : α)
    (d : ℕ → α) :
    (∀ i, i < n → (small_exclusive_scan_n op n init d).1 i
        = ((List.range i).map d).foldl op init)
    ∧ (small_exclusive_scan_n op n init d).2
        = ((List.range n).map d).foldl op init
    ∧ (n = 0 → ∀ i, (small_exclusive_scan_n op n init d).1 i = d i) :=
  ⟨small_exclusive_scan_n_out op hA n init d,
   small_exclusive_scan_n_total op hA n init d,
   fun hn i => by
     subst hn
     simp only [small_exclusive_scan_n]
     rw [if_neg (by omega)]
     unfold sxsnIncl small_inclusive_scan_n
     simp [hsGo]⟩

/-- Witness for C7 at `n = 3`, `init = 1`, buffer `i ↦ i + 1`. -/
theorem claim7_small_exclusive_scan_witness :
    ((0 : ℕ) < (3 : ℕ))
    ∧ (small_exclusive_scan_n Nat.add 3 1 (fun i => i + 1)).1 2
        = ((List.range 2).map (fun i => i + 1)).foldl Nat.add 1
    ∧ (small_exclusive_scan_n Nat.add 3 1 (fun i => i + 1)).2
        = ((List.range 3).map (fun i => i + 1)).foldl Nat.add 1 :=
  ⟨by decide,
   (claim7_small_exclusive_scan Nat.add Nat.add_assoc 3 1 (fun i => i + 1)).1
     2 (by decide),
   (claim7_small_exclusive_scan Nat.add Nat.add_assoc 3 1 (fun i => i + 1)).2.1⟩

/-- Claim C8: for every binary operation (associativity is not needed),
every `0 < size`, every buffer contents and every `init`, the ping-pong
variant leaves the `size` primary slots identical to what
`small_exclusive_scan_n` with `n = size` leaves, and returns the same
aggregate: on full-size inputs the two implementations are functionally
identical. -/
theorem claim8_inplace_buffer_equiv (op : α → α → α) (size : ℕ)
    (hs : 0 < size) (first : ℕ → α) (init : α) (buffer : ℕ → α) :
    (∀ i, i < size →
      (small_inplace_exclusive_scan_with_buffer op size first init buffer).1 i
        = (small_exclusive_scan_n op size init first).1 i)
    ∧ (small_inplace_exclusive_scan_with_buffer op size first init buffer).2
        = (small_exclusive_scan_n op size init first).2 :=
  ⟨sipxswb_eq_sxsn_out op size hs first init buffer,
   sipxswb_eq_sxsn_total op size hs first init buffer⟩

/-- Witness for C8 with the non-associative operation of truncated
subtraction, `size = 3`. -/
theorem claim8_inplace_buffer_equiv_witness :
    ((0 : ℕ) < (3 : ℕ))
    ∧ (small_inplace_exclusive_scan_with_buffer Nat.sub 3
        (fun i => 10 * i + 5) 100 (fun _ => 77)).1 2
      = (small_exclusive_scan_n Nat.sub 3 100 (fun i => 10 * i + 5)).1 2
    ∧ (small_inplace_exclusive_scan_with_buffer Nat.sub 3
        (fun i => 10 * i + 5) 100 (fun _ => 77)).2
      = (small_exclusive_scan_n Nat.sub 3 100 (fun i => 10 * i + 5)).2 :=
  ⟨by decide,
   (claim8_inplace_buffer_equiv Nat.sub 3 (by decide)
     (fun i => 10 * i + 5) 100 (fun _ => 77)).1 2 (by decide),
   (claim8_inplace_buffer_equiv Nat.sub 3 (by decide)
     (fun i => 10 * i + 5) 100 (fun _ => 77)).2⟩

/-! ### Specification of the per-agent re-walk and of the tile -/

lemma rewalk_spec (op : α → α → α) (incl : Bool) :
    ∀ (seg : List α) (x : α),
      rewalk op incl x seg
        = (List.range seg.length).map
            (fun i => (seg.take (i + (if incl then 1 else 0))).foldl op x)
  | [], x => by simp [rewalk]
  | v :: rest, x => by
    rw [List.length_cons, List.range_succ_eq_map, List.map_cons, List.map_map]
    cases incl
    case false =>
      show x :: rewalk op false (op x v) rest = _
      rw [rewalk_spec op false rest (op x v)]
      refine congrArg₂ _ rfl ?_
      exact List.map_congr_left (fun i _ => rfl)
    case true =>
      show op x v :: rewalk op true (op x v) rest = _
      rw [rewalk_spec op true rest (op x v)]
      refine congrArg₂ _ rfl ?_
      exact List.map_congr_left (fun i _ => rfl)

lemma rewalk_length (op : α → α → α) (incl : Bool) (seg : List α) (x : α) :
    (rewalk op incl x seg).length = seg.length := by
  rw [rewalk_spec]
  simp

lemma segOf_length (grn : ℕ) (tile : List α) (tid : ℕ) :
    (segOf grn tile tid).length = localSize grn tile.length tid := by
  simp [segOf, localSize]

lemma foldl_take_add (op : α → α → α) (l : List α) (k m : ℕ) (c : α) :
    ((l.drop k).take m).foldl op ((l.take k).foldl op c)
      = (l.take (k + m)).foldl op c := by
  rw [List.take_add, List.foldl_append]

lemma tileSums_prefix (op : α → α → α)
    (hA : ∀ a b c, op (op a b) c = op a (op b c)) (grn : ℕ) (hgr : 0 < grn)
    (mem : ℕ → α) (tile : List α) (c : α) :
    ∀ tid, (∀ j, j < tid → grn * j < tile.length) →
      ((List.range tid).map (tileSums op grn mem tile)).foldl op c
        = (tile.take (grn * tid)).foldl op c
  | 0, _ => by simp
  | tid + 1, h => by
    rw [List.range_succ, List.map_append, List.foldl_append,
      tileSums_prefix op hA grn hgr mem tile c tid (fun j hj => h j (by omega))]
    have hdata : grn * tid < tile.length := h tid (by omega)
    have hsz : 0 < localSize grn tile.length tid := by
      unfold localSize
      omega
    rw [show grn * (tid + 1) = grn * tid + grn from Nat.mul_succ grn tid,
      List.take_add, List.foldl_append]
    show List.foldl op _ [tileSums op grn mem tile tid] = _
    unfold tileSums segOf
    rw [if_pos hsz]
    rcases hseg : (tile.drop (grn * tid)).take grn with _ | ⟨v, t⟩
    · exfalso
      have hlenseg := congrArg List.length hseg
      simp only [List.length_take, List.length_drop, List.length_nil] at hlenseg
      unfold localSize at hsz
      omega
    · show op _ (segFold op (mem tid) (v :: t)) = _
      simp only [segFold]
      rw [List.foldl_cons]
      exact (foldl_op_assoc op hA t _ v).symm

lemma scanTile_out (op : α → α → α)
    (hA : ∀ a b c, op (op a b) c = op a (op b c)) (gsz grn : ℕ)
    (hg : 0 < gsz) (hgr : 0 < grn) (incl : Bool) (c : α) (mem : ℕ → α)
    (tile : List α) (hlen : tile.length ≤ gsz * grn) :
    (scanTile op gsz grn incl c mem tile).1
      = (List.range tile.length).map
          (fun j => (tile.take (j + (if incl then 1 else 0))).foldl op c) := by
  have hδ : (if incl then 1 else 0) ≤ 1 := by cases incl <;> simp
  show ((List.range gsz).map _).flatten = _
  have hblocks : (List.range gsz).map
        (fun tid => rewalk op incl ((tileScanned op gsz grn c mem tile).1 tid)
          (segOf grn tile tid))
      = (List.range gsz).map
        (fun tid => (List.range' (grn * tid)
            (min grn (tile.length - grn * tid))).map
          (fun j => (tile.take (j + (if incl then 1 else 0))).foldl op c)) := by
    refine List.map_congr_left (fun tid htid => ?_)
    have htid' : tid < gsz := List.mem_range.mp htid
    rw [rewalk_spec, segOf_length, List.range'_eq_map_range, List.map_map]
    unfold localSize
    refine List.map_congr_left (fun i hi => ?_)
    simp only [Function.comp_apply]
    have hi' : i < min grn (tile.length - grn * tid) := List.mem_range.mp hi
    have hdata : grn * tid < tile.length := by omega
    have hpred : ∀ j, j < tid → grn * j < tile.length := by
      intro j hj
      have : grn * j < grn * tid := by
        exact Nat.mul_lt_mul_of_pos_left hj hgr
      omega
    have hexcl : (tileScanned op gsz grn c mem tile).1 tid
        = (tile.take (grn * tid)).foldl op c := by
      unfold tileScanned
      rw [sipxswb_out op hA gsz hg _ c _ tid htid']
      exact tileSums_prefix op hA grn hgr mem tile c tid hpred
    rw [hexcl]
    show ((segOf grn tile tid).take _).foldl op _ = _
    unfold segOf
    rw [List.take_take, min_eq_left (by omega),
      foldl_take_add op tile (grn * tid) (i + (if incl then 1 else 0)) c,
      ← Nat.add_assoc]
  rw [hblocks]
  have hmm : (List.range gsz).map
        (fun tid => (List.range' (grn * tid)
            (min grn (tile.length - grn * tid))).map
          (fun j => (tile.take (j + (if incl then 1 else 0))).foldl op c))
      = List.map (List.map
          (fun j => (tile.take (j + (if incl then 1 else 0))).foldl op c))
          ((List.range gsz).map
            (fun tid => List.range' (grn * tid)
              (min grn (tile.length - grn * tid)))) := by
    rw [List.map_map]
    rfl
  rw [hmm, ← List.map_flatten, join_blocks grn tile.length gsz]
  rw [Nat.mul_comm gsz grn] at hlen
  rw [min_eq_right hlen, ← List.range_eq_range']

lemma scanTile_carry (op : α → α → α)
    (hA : ∀ a b c, op (op a b) c = op a (op b c)) (gsz grn : ℕ)
    (hg : 0 < gsz) (hgr : 0 < grn) (incl : Bool) (c : α) (mem : ℕ → α)
    (tile : List α) (hfull : ∀ j, j < gsz → grn * j < tile.length)
    (hlen : tile.length ≤ gsz * grn) :
    (scanTile op gsz grn incl c mem tile).2.1 = tile.foldl op c := by
  show (tileScanned op gsz grn c mem tile).2 = _
  unfold tileScanned
  rw [sipxswb_total op hA gsz hg _ c _,
    tileSums_prefix op hA grn hgr mem tile c gsz hfull,
    List.take_of_length_le (by rw [Nat.mul_comm]; exact hlen)]

lemma scanTile_length (op : α → α → α) (gsz grn : ℕ) (incl : Bool) (c : α)
    (mem : ℕ → α) (tile : List α) (hlen : tile.length ≤ gsz * grn) :
    (scanTile op gsz grn incl c mem tile).1.length = tile.length := by
  show (((List.range gsz).map _).flatten).length = _
  have hj := congrArg List.length (join_blocks grn tile.length gsz)
  simp only [List.length_flatten, List.map_map, Function.comp_def,
    List.length_range'] at hj
  rw [List.length_flatten, List.map_map]
  have hcongr : (List.range gsz).map
        ((fun l => List.length l) ∘
          (fun tid => rewalk op incl ((tileScanned op gsz grn c mem tile).1 tid)
            (segOf grn tile tid)))
      = (List.range gsz).map
          (fun tid => min grn (tile.length - grn * tid)) := by
    refine List.map_congr_left (fun tid _ => ?_)
    show (rewalk op incl _ _).length = _
    rw [rewalk_length, segOf_length]
    rfl
  rw [hcongr, hj, Nat.mul_comm grn gsz]
  omega

/-! ### The tile loop -/

lemma scanGo_nil (op : α → α → α) (gsz grn : ℕ) (incl : Bool) (fuel : ℕ)
    (c : α) (mem : ℕ → α) : scanGo op gsz grn incl fuel [] c mem = ([], c) := by
  cases fuel <;> simp [scanGo]

lemma scanGo_succ (op : α → α → α) (gsz grn : ℕ) (incl : Bool) (fuel : ℕ)
    (l : List α) (c : α) (mem : ℕ → α) (h1 : 0 < gsz * grn)
    (h2 : 0 < l.length) :
    scanGo op gsz grn incl (fuel + 1) l c mem
      = ((scanTile op gsz grn incl c mem (l.take (min (gsz * grn) l.length))).1 ++
          (scanGo op gsz grn incl fuel (l.drop (min (gsz * grn) l.length))
            (scanTile op gsz grn incl c mem (l.take (min (gsz * grn) l.length))).2.1
            (scanTile op gsz grn incl c mem (l.take (min (gsz * grn) l.length))).2.2).1,
         (scanGo op gsz grn incl fuel (l.drop (min (gsz * grn) l.length))
            (scanTile op gsz grn incl c mem (l.take (min (gsz * grn) l.length))).2.1
            (scanTile op gsz grn incl c mem (l.take (min (gsz * grn) l.length))).2.2).2) := by
  simp only [scanGo, if_pos (And.intro h1 h2)]

lemma scanGo_length (op : α → α → α) (gsz grn : ℕ) (hg : 0 < gsz)
    (hgr : 0 < grn) (incl : Bool) :
    ∀ (fuel : ℕ) (l : List α) (c : α) (mem : ℕ → α), l.length ≤ fuel →
      (scanGo op gsz grn incl fuel l c mem).1.length = l.length
  | 0, l, c, mem, hf => by
    have hl : l = [] := List.length_eq_zero.mp (by omega)
    subst hl
    simp [scanGo]
  | fuel + 1, l, c, mem, hf => by
    by_cases h2 : 0 < l.length
    · have h1 : 0 < gsz * grn := Nat.mul_pos hg hgr
      rw [scanGo_succ op gsz grn incl fuel l c mem h1 h2]
      show ((scanTile _ _ _ _ _ _ _).1 ++ _).length = _
      rw [List.length_append]
      have htl : (l.take (min (gsz * grn) l.length)).length
          = min (gsz * grn) l.length := by simp
      rw [scanTile_length op gsz grn incl c mem _ (by rw [htl]; omega)]
      rw [scanGo_length op gsz grn hg hgr incl fuel _ _ _
        (by simp only [List.length_drop]; omega)]
      rw [htl, List.length_drop]
      omega
    · have hl : l = [] := List.length_eq_zero.mp (by omega)
      subst hl
      simp [scanGo]

lemma scanGo_out (op : α → α → α)
    (hA : ∀ a b c, op (op a b) c = op a (op b c)) (gsz grn : ℕ)
    (hg : 0 < gsz) (hgr : 0 < grn) (incl : Bool) :
    ∀ (fuel : ℕ) (l : List α) (c : α) (mem : ℕ → α), l.length ≤ fuel →
      (scanGo op gsz grn incl fuel l c mem).1
        = (List.range l.length).map
            (fun j => (l.take (j + (if incl then 1 else 0))).foldl op c)
  | 0, l, c, mem, hf => by
    have hl : l = [] := List.length_eq_zero.mp (by omega)
    subst hl
    simp [scanGo]
  | fuel + 1, l, c, mem, hf => by
    by_cases h2 : 0 < l.length
    case neg =>
      have hl : l = [] := List.length_eq_zero.mp (by omega)
      subst hl
      simp [scanGo]
    case pos =>
    have hδ : (if incl then 1 else 0) ≤ 1 := by cases incl <;> simp
    have h1 : 0 < gsz * grn := Nat.mul_pos hg hgr
    have hcomm : grn * gsz = gsz * grn := Nat.mul_comm grn gsz
    rw [scanGo_succ op gsz grn incl fuel l c mem h1 h2]
    show (scanTile _ _ _ _ _ _ _).1 ++ (scanGo _ _ _ _ _ _ _ _).1 = _
    have hple : min (gsz * grn) l.length ≤ l.length := min_le_right _ _
    have htl : (l.take (min (gsz * grn) l.length)).length
        = min (gsz * grn) l.length := by simp
    rw [scanTile_out op hA gsz grn hg hgr incl c mem _ (by rw [htl]; omega)]
    rw [scanGo_out op hA gsz grn hg hgr incl fuel _ _ _
      (by simp only [List.length_drop]; omega)]
    rw [htl, List.length_drop]
    by_cases hfull : gsz * grn ≤ l.length
    · have hpe : min (gsz * grn) l.length = gsz * grn := by omega
      have hcarry :
          (scanTile op gsz grn incl c mem
            (l.take (min (gsz * grn) l.length))).2.1
          = (l.take (min (gsz * grn) l.length)).foldl op c := by
        refine scanTile_carry op hA gsz grn hg hgr incl c mem _ ?_
          (by rw [htl]; omega)
        intro j hj
        have hmul : grn * j < grn * gsz := Nat.mul_lt_mul_of_pos_left hj hgr
        rw [htl]
        omega
      rw [hcarry]
      have hfst : (List.range (min (gsz * grn) l.length)).map
            (fun j => ((l.take (min (gsz * grn) l.length)).take
              (j + (if incl then 1 else 0))).foldl op c)
          = (List.range (min (gsz * grn) l.length)).map
            (fun j => (l.take (j + (if incl then 1 else 0))).foldl op c) := by
        refine List.map_congr_left (fun j hj => ?_)
        have hj' : j < min (gsz * grn) l.length := List.mem_range.mp hj
        rw [List.take_take, min_eq_left (by omega)]
      have hsnd : (List.range (l.length - min (gsz * grn) l.length)).map
            (fun j => ((l.drop (min (gsz * grn) l.length)).take
                (j + (if incl then 1 else 0))).foldl op
              ((l.take (min (gsz * grn) l.length)).foldl op c))
          = (List.range (l.length - min (gsz * grn) l.length)).map
            ((fun j => (l.take (j + (if incl then 1 else 0))).foldl op c)
              ∘ (fun j => min (gsz * grn) l.length + j)) := by
        refine List.map_congr_left (fun j hj => ?_)
        simp only [Function.comp_apply]
        rw [foldl_take_add op l (min (gsz * grn) l.length)
          (j + (if incl then 1 else 0)) c, ← Nat.add_assoc]
      rw [hfst, hsnd, ← List.map_map, ← List.map_append]
      refine congrArg _ ?_
      rw [← List.range'_eq_map_range, List.range_eq_range' (min (gsz * grn) l.length)]
      have h1' := List.range'_append_1 0 (min (gsz * grn) l.length)
        (l.length - min (gsz * grn) l.length)
      rw [Nat.zero_add] at h1'
      rw [h1', List.range_eq_range']
      congr 1
      omega
    · have hpe : min (gsz * grn) l.length = l.length := by omega
      rw [hpe, List.take_length, Nat.sub_self]
      simp
  termination_by fuel => fuel

lemma scanGo_carry (op : α → α → α)
    (hA : ∀ a b c, op (op a b) c = op a (op b c)) (gsz grn : ℕ)
    (hg : 0 < gsz) (hgr : 0 < grn) (incl : Bool) :
    ∀ (fuel : ℕ) (l : List α) (c : α) (mem : ℕ → α), l.length ≤ fuel →
      (l.length % (gsz * grn) = 0 ∨ grn * (gsz - 1) < l.length % (gsz * grn)) →
      (scanGo op gsz grn incl fuel l c mem).2 = l.foldl op c
  | 0, l, c, mem, hf, _ => by
    have hl : l = [] := List.length_eq_zero.mp (by omega)
    subst hl
    simp [scanGo]
  | fuel + 1, l, c, mem, hf, hmod => by
    by_cases h2 : 0 < l.length
    case neg =>
      have hl : l = [] := List.length_eq_zero.mp (by omega)
      subst hl
      simp [scanGo]
    case pos =>
    have h1 : 0 < gsz * grn := Nat.mul_pos hg hgr
    have hcomm : grn * gsz = gsz * grn := Nat.mul_comm grn gsz
    rw [scanGo_succ op gsz grn incl fuel l c mem h1 h2]
    show (scanGo _ _ _ _ _ _ _ _).2 = _
    have htl : (l.take (min (gsz * grn) l.length)).length
        = min (gsz * grn) l.length := by simp
    by_cases hfull : gsz * grn ≤ l.length
    · have hcarry :
          (scanTile op gsz grn incl c mem
            (l.take (min (gsz * grn) l.length))).2.1
          = (l.take (min (gsz * grn) l.length)).foldl op c := by
        refine scanTile_carry op hA gsz grn hg hgr incl c mem _ ?_
          (by rw [htl]; omega)
        intro j hj
        have hmul : grn * j < grn * gsz := Nat.mul_lt_mul_of_pos_left hj hgr
        rw [htl]
        omega
      rw [hcarry]
      have hkey : (l.length - gsz * grn) % (gsz * grn) = l.length % (gsz * grn) := by
        conv_rhs => rw [show l.length = l.length - gsz * grn + gsz * grn by omega]
        rw [Nat.add_mod_right]
      rw [scanGo_carry op hA gsz grn hg hgr incl fuel _ _ _
        (by simp only [List.length_drop]; omega) ?_]
      · rw [← List.foldl_append, List.take_append_drop]
      · simp only [List.length_drop]
        rw [show min (gsz * grn) l.length = gsz * grn by omega, hkey]
        exact hmod
    · have hpe : min (gsz * grn) l.length = l.length := by omega
      have hmod' : l.length % (gsz * grn) = l.length := Nat.mod_eq_of_lt (by omega)
      have hcond : ∀ j, j < gsz →
          grn * j < (l.take (min (gsz * grn) l.length)).length := by
        intro j hj
        rw [htl]
        rcases hmod with h | h
        · rw [hmod'] at h
          omega
        · rw [hmod'] at h
          have : grn * j ≤ grn * (gsz - 1) := Nat.mul_le_mul_left grn (by omega)
          omega
      rw [scanTile_carry op hA gsz grn hg hgr incl c mem _ hcond
        (by rw [htl]; omega)]
      have hdrop : l.drop (min (gsz * grn) l.length) = [] := by
        rw [hpe, List.drop_length]
      rw [hdrop, scanGo_nil]
      show (l.take (min (gsz * grn) l.length)).foldl op c = _
      rw [hpe, List.take_length]
  termination_by fuel => fuel

lemma getD_map_range (f : ℕ → α) {n i : ℕ} (hi : i < n) (dflt : α) :
    ((List.range n).map f).getD i dflt = f i := by
  rw [List.getD_eq_getElem?_getD, List.getElem?_map, List.getElem?_range hi]
  rfl

/-! ### Claims about the tiled scans -/

/-- Claim C1: for every associative operation, every `init`, and every
input of any length, the tiled scans compute left-to-right folds at every
output position: the `init`-taking inclusive scan writes
`fold(op, init, input[0..j])` at position `j`, the exclusive scan writes
`fold(op, init, input[0..j))`, and the `init`-free public overload seeds
the fold with the first input element.  The statement holds for every
initial scratch content `mem`. -/
theorem claim1_scan_is_fold (op : α → α → α)
    (hA : ∀ a b c, op (op a b) c = op a (op b c)) (groupsize grainsize : ℕ)
    (hg : 0 < groupsize) (hgr : 0 < grainsize) (init : α) (l : List α)
    (mem : ℕ → α) :
    (inclusive_scan_with_buffer op groupsize grainsize l init mem).1
        = (List.range l.length).map (fun j => (l.take (j + 1)).foldl op init)
    ∧ (exclusive_scan_with_buffer op groupsize grainsize l init mem).1
        = (List.range l.length).map (fun j => (l.take j).foldl op init)
    ∧ inclusive_scan_from_first op groupsize grainsize ([] : List α) mem = []
    ∧ ∀ (x : α) (rest : List α),
        inclusive_scan_from_first op groupsize grainsize (x :: rest) mem
          = (List.range (rest.length + 1)).map
              (fun j => (rest.take j).foldl op x) := by
  refine ⟨?_, ?_, rfl, fun x rest => ?_⟩
  · show (scanGo op groupsize grainsize true l.length l init mem).1 = _
    rw [scanGo_out op hA groupsize grainsize hg hgr true l.length l init mem
      (le_refl _)]
    rfl
  · show (scanGo op groupsize grainsize false l.length l init mem).1 = _
    rw [scanGo_out op hA groupsize grainsize hg hgr false l.length l init mem
      (le_refl _)]
    rfl
  · show x :: (scanGo op groupsize grainsize true rest.length rest x mem).1 = _
    rw [scanGo_out op hA groupsize grainsize hg hgr true rest.length rest x mem
      (le_refl _)]
    rw [List.range_succ_eq_map, List.map_cons, List.map_map]
    refine congrArg₂ _ rfl ?_
    exact List.map_congr_left (fun i _ => rfl)

/-- Witness for C1: the worked example of the spec, on two tiles of a
2-agent group with grain 2 (`[1,2,3,4]` and the partial tile `[5]`). -/
theorem claim1_scan_is_fold_witness :
    (inclusive_scan_with_buffer Nat.add 2 2 [1, 2, 3, 4, 5] 0
        (fun _ => 99)).1 = [1, 3, 6, 10, 15]
    ∧ (exclusive_scan_with_buffer Nat.add 2 2 [1, 2, 3, 4, 5] 0
        (fun _ => 99)).1 = [0, 1, 3, 6, 10]
    ∧ inclusive_scan_from_first Nat.add 2 2 [1, 2, 3, 4, 5]
        (fun _ => 99) = [1, 3, 6, 10, 15] :=
  ⟨((claim1_scan_is_fold Nat.add Nat.add_assoc 2 2 (by decide) (by decide) 0
      [1, 2, 3, 4, 5] (fun _ => 99)).1).trans (by decide),
   ((claim1_scan_is_fold Nat.add Nat.add_assoc 2 2 (by decide) (by decide) 0
      [1, 2, 3, 4, 5] (fun _ => 99)).2.1).trans (by decide),
   ((claim1_scan_is_fold Nat.add Nat.add_assoc 2 2 (by decide) (by decide) 0
      [1, 2, 3, 4, 5] (fun _ => 99)).2.2.2 1 [2, 3, 4, 5]).trans (by decide)⟩

/-- Claim C5 (counterexample): chaining fails as universally stated.  With
`groupsize = 2`, `grainsize = 1`, the associative operation `+`, `init = 0`
and the split `A = [1]`, `B = [2]`, agent 1 of the final tile of `A` has no
data, so the group aggregate folds the uninitialized sums slot (here scratch
contents 5) into the carry: the chained scan writes `[1, 8]` while the
one-call scan over `[1] ++ [2]` writes `[1, 3]`. -/
theorem claim5_chaining_counterexample :
    ¬ ((inclusive_scan_with_buffer Nat.add 2 1 [1] 0 (fun _ => 5)).1
        ++ (inclusive_scan_with_buffer Nat.add 2 1 [2]
              ((inclusive_scan_with_buffer Nat.add 2 1 [1] 0 (fun _ => 5)).2)
              (fun _ => 5)).1
      = (inclusive_scan_with_buffer Nat.add 2 1 ([1] ++ [2]) 0
          (fun _ => 5)).1) := by
  decide

/-- Claim C5 as amended: chaining holds for every split in which the final
tile of `A`, if partial, still assigns at least one element to every agent
— in particular whenever the length of `A` is a multiple of the tile size
`groupsize * grainsize`.  Exactly then the carry produced by scanning `A`
folds no uninitialized sums slot and equals `fold(op, init, A)`. -/
theorem claim5_chaining_amended (op : α → α → α)
    (hA : ∀ a b c, op (op a b) c = op a (op b c)) (groupsize grainsize : ℕ)
    (hg : 0 < groupsize) (hgr : 0 < grainsize) (init : α) (A B : List α)
    (memA memB memC : ℕ → α)
    (hsplit : A.length % (groupsize * grainsize) = 0
      ∨ grainsize * (groupsize - 1) < A.length % (groupsize * grainsize)) :
    (inclusive_scan_with_buffer op groupsize grainsize A init memA).1
        ++ (inclusive_scan_with_buffer op groupsize grainsize B
              ((inclusive_scan_with_buffer op groupsize grainsize A init
                memA).2) memB).1
      = (inclusive_scan_with_buffer op groupsize grainsize (A ++ B) init
          memC).1
    ∧ (exclusive_scan_with_buffer op groupsize grainsize A init memA).1
        ++ (exclusive_scan_with_buffer op groupsize grainsize B
              ((exclusive_scan_with_buffer op groupsize grainsize A init
                memA).2) memB).1
      = (exclusive_scan_with_buffer op groupsize grainsize (A ++ B) init
          memC).1 := by
  have hcarry : ∀ (b : Bool) (memX : ℕ → α),
      (scanGo op groupsize grainsize b A.length A init memX).2
        = A.foldl op init :=
    fun b memX => scanGo_carry op hA groupsize grainsize hg hgr b A.length A
      init memX (le_refl _) hsplit
  have hmain : ∀ (b : Bool),
      (scanGo op groupsize grainsize b A.length A init memA).1
        ++ (scanGo op groupsize grainsize b B.length B
              ((scanGo op groupsize grainsize b A.length A init memA).2)
              memB).1
      = (scanGo op groupsize grainsize b (A ++ B).length (A ++ B) init
          memC).1 := by
    intro b
    have hδ : (if b then 1 else 0) ≤ 1 := by cases b <;> simp
    rw [scanGo_out op hA groupsize grainsize hg hgr b A.length A init memA
      (le_refl _)]
    rw [hcarry b memA]
    rw [scanGo_out op hA groupsize grainsize hg hgr b B.length B
      (A.foldl op init) memB (le_refl _)]
    rw [scanGo_out op hA groupsize grainsize hg hgr b (A ++ B).length (A ++ B)
      init memC (le_refl _)]
    rw [List.length_append]
    have hsplitr : List.range (A.length + B.length)
        = List.range A.length ++ (List.range B.length).map
            (fun j => A.length + j) := by
      rw [List.range_eq_range' (A.length + B.length),
        List.range_eq_range' A.length, ← List.range'_eq_map_range]
      have h1 := List.range'_append_1 0 A.length B.length
      rw [Nat.zero_add] at h1
      rw [h1, Nat.add_comm A.length B.length]
    rw [hsplitr, List.map_append, List.map_map]
    refine congrArg₂ _ ?_ ?_
    · refine List.map_congr_left (fun j hj => ?_)
      have hj' : j < A.length := List.mem_range.mp hj
      rw [List.take_append_of_le_length
        (by omega : j + (if b then 1 else 0) ≤ A.length)]
    · refine List.map_congr_left (fun j hj => ?_)
      simp only [Function.comp_apply]
      rw [Nat.add_assoc A.length j (if b then 1 else 0), List.take_append,
        List.foldl_append]
  exact ⟨hmain true, hmain false⟩

/-- Witness for C5 as amended, at the tile-aligned split
`A = [1, 2]`, `B = [3]` of a 2-agent group with grain 1. -/
theorem claim5_chaining_amended_witness :
    (([1, 2] : List ℕ).length % (2 * 1) = 0
      ∨ 1 * (2 - 1) < ([1, 2] : List ℕ).length % (2 * 1))
    ∧ (inclusive_scan_with_buffer Nat.add 2 1 [1, 2] 0 (fun _ => 7)).1
        ++ (inclusive_scan_with_buffer Nat.add 2 1 [3]
              ((inclusive_scan_with_buffer Nat.add 2 1 [1, 2] 0
                (fun _ => 7)).2) (fun _ => 7)).1
      = (inclusive_scan_with_buffer Nat.add 2 1 ([1, 2] ++ [3]) 0
          (fun _ => 7)).1 :=
  ⟨Or.inl (by decide),
   (claim5_chaining_amended Nat.add Nat.add_assoc 2 1 (by decide) (by decide) 0
      [1, 2] [3] (fun _ => 7) (fun _ => 7) (fun _ => 7)
      (Or.inl (by decide))).1⟩

/-- Claim C6: for every input, associative operation and shared `init`, at
every index `i` below the input length, applying `op` to the exclusive
output at `i` and the input at `i` yields the inclusive output at `i` (the
two algorithms differ only in the combine-then-write versus
write-then-combine order of the re-walk loop, the `rewalk` flag of this
embedding). -/
theorem claim6_exclusive_op_input_eq_inclusive (op : α → α → α)
    (hA : ∀ a b c, op (op a b) c = op a (op b c)) (groupsize grainsize : ℕ)
    (hg : 0 < groupsize) (hgr : 0 < grainsize) (init : α) (l : List α)
    (mem : ℕ → α) :
    ∀ (dflt : α) (i : ℕ), i < l.length →
      op ((exclusive_scan_with_buffer op groupsize grainsize l init
            mem).1.getD i dflt) (l.getD i dflt)
        = (inclusive_scan_with_buffer op groupsize grainsize l init
            mem).1.getD i dflt := by
  intro dflt i hi
  show op ((scanGo op groupsize grainsize false l.length l init mem).1.getD
      i dflt) _
    = (scanGo op groupsize grainsize true l.length l init mem).1.getD i dflt
  rw [scanGo_out op hA groupsize grainsize hg hgr false l.length l init mem
      (le_refl _),
    scanGo_out op hA groupsize grainsize hg hgr true l.length l init mem
      (le_refl _),
    getD_map_range _ hi dflt, getD_map_range _ hi dflt]
  have hgetd : l.getD i dflt = l[i] := by
    rw [List.getD_eq_getElem?_getD, List.getElem?_eq_getElem hi]
    rfl
  have htake : l.take (i + 1) = l.take i ++ [l.getD i dflt] := by
    rw [List.take_succ, List.getElem?_eq_getElem hi, hgetd]
    rfl
  show op ((l.take i).foldl op init) (l.getD i dflt)
      = (l.take (i + 1)).foldl op init
  rw [htake, List.foldl_append]
  rfl

/-- Witness for C6 on the spec example input at index 3. -/
theorem claim6_exclusive_op_input_eq_inclusive_witness :
    ((3 : ℕ) < ([1, 2, 3, 4, 5] : List ℕ).length)
    ∧ Nat.add ((exclusive_scan_with_buffer Nat.add 2 2 [1, 2, 3, 4, 5] 0
          (fun _ => 99)).1.getD 3 0) (([1, 2, 3, 4, 5] : List ℕ).getD 3 0)
      = (inclusive_scan_with_buffer Nat.add 2 2 [1, 2, 3, 4, 5] 0
          (fun _ => 99)).1.getD 3 0 :=
  ⟨by decide,
   claim6_exclusive_op_input_eq_inclusive Nat.add Nat.add_assoc 2 2
     (by decide) (by decide) 0 [1, 2, 3, 4, 5] (fun _ => 99) 0 3 (by decide)⟩

/-- Claim C9: the tiled scans produce exactly one output per input element
(a fully written output range of the input length, for any operation and
any scratch contents); the write trace of the tile loop writes each of the
positions `0 .. len - 1` exactly once and no position outside; and an empty
input performs zero tile iterations, writes nothing, and leaves the carry
unchanged. -/
theorem claim9_scan_write_frame (op : α → α → α) (groupsize grainsize : ℕ)
    (hg : 0 < groupsize) (hgr : 0 < grainsize) (init : α) (l : List α)
    (mem : ℕ → α) :
    (inclusive_scan_with_buffer op groupsize grainsize l init mem).1.length
        = l.length
    ∧ (exclusive_scan_with_buffer op groupsize grainsize l init mem).1.length
        = l.length
    ∧ scanWrites (groupsize * grainsize) l.length = List.range l.length
    ∧ (∀ i, i < l.length →
        (scanWrites (groupsize * grainsize) l.length).count i = 1)
    ∧ (∀ i, l.length ≤ i →
        (scanWrites (groupsize * grainsize) l.length).count i = 0)
    ∧ scanNumTiles (groupsize * grainsize) 0 = 0
    ∧ inclusive_scan_with_buffer op groupsize grainsize ([] : List α) init mem
        = ([], init)
    ∧ exclusive_scan_with_buffer op groupsize grainsize ([] : List α) init mem
        = ([], init) := by
  have hepg : 0 < groupsize * grainsize := Nat.mul_pos hg hgr
  refine ⟨scanGo_length op groupsize grainsize hg hgr true l.length l init mem
      (le_refl _),
    scanGo_length op groupsize grainsize hg hgr false l.length l init mem
      (le_refl _),
    scanWrites_eq _ _ hepg, fun i hi => ?_, fun i hi => ?_, rfl,
    scanGo_nil op groupsize grainsize true 0 init mem,
    scanGo_nil op groupsize grainsize false 0 init mem⟩
  · rw [scanWrites_eq _ _ hepg]
    exact List.count_eq_one_of_mem (List.nodup_range _) (List.mem_range.mpr hi)
  · rw [scanWrites_eq _ _ hepg]
    refine List.count_eq_zero.mpr ?_
    rw [List.mem_range]
    omega

/-- Witness for C9 on the spec example input. -/
theorem claim9_scan_write_frame_witness :
    (inclusive_scan_with_buffer Nat.add 2 2 [1, 2, 3, 4, 5] 0
        (fun _ => 99)).1.length = ([1, 2, 3, 4, 5] : List ℕ).length
    ∧ scanWrites (2 * 2) ([1, 2, 3, 4, 5] : List ℕ).length
        = List.range ([1, 2, 3, 4, 5] : List ℕ).length
    ∧ (scanWrites (2 * 2) ([1, 2, 3, 4, 5] : List ℕ).length).count 3 = 1
    ∧ (scanWrites (2 * 2) ([1, 2, 3, 4, 5] : List ℕ).length).count 7 = 0
    ∧ inclusive_scan_with_buffer Nat.add 2 2 ([] : List ℕ) 0 (fun _ => 99)
        = ([], 0) :=
  ⟨(claim9_scan_write_frame Nat.add 2 2 (by decide) (by decide) 0
      [1, 2, 3, 4, 5] (fun _ => 99)).1,
   (claim9_scan_write_frame Nat.add 2 2 (by decide) (by decide) 0
      [1, 2, 3, 4, 5] (fun _ => 99)).2.2.1,
   (claim9_scan_write_frame Nat.add 2 2 (by decide) (by decide) 0
      [1, 2, 3, 4, 5] (fun _ => 99)).2.2.2.1 3 (by decide),
   (claim9_scan_write_frame Nat.add 2 2 (by decide) (by decide) 0
      [1, 2, 3, 4, 5] (fun _ => 99)).2.2.2.2.1 7 (by decide),
   (claim9_scan_write_frame Nat.add 2 2 (by decide) (by decide) 0
      [1, 2, 3, 4, 5] (fun _ => 99)).2.2.2.2.2.2.1⟩

/-! ### Claims about the merge side -/

/-- Claim C3: `bounded_merge` performs at most `bound` emission steps and
writes exactly `min bound (n1 + n2)` output elements (the returned iterator
is `result + i` with `i` the number of elements written, so it is advanced
by exactly that amount), and on every step where neither range is exhausted
it emits the current element of range 1 exactly when `comp` applied to
(current2, current1) is false — equal elements are taken from range 1
first.  In the second conjunct the registers hold the current elements
`d1 idx1` and `d2 idx2`; this is invariant in the source, because the only
branches that break register freshness are the one-sided branches, and
exhaustion of a range is permanent, so the neither-exhausted branch always
runs with fresh registers. -/
theorem claim3_bounded_merge_steps (comp : α → α → Bool) (bound : ℕ)
    (l1 l2 : List α) (junk1 junk2 : α) :
    (bounded_merge comp bound l1 l2 junk1 junk2).length
        = min bound (l1.length + l2.length)
    ∧ ∀ (d1 d2 : ℕ → α) (n1 n2 fuel idx1 idx2 : ℕ),
        idx1 < n1 → idx2 < n2 →
        bmGo comp d1 d2 n1 n2 (fuel + 1) idx1 idx2 (d1 idx1) (d2 idx2)
          = if comp (d2 idx2) (d1 idx1) = false
            then d1 idx1 :: bmGo comp d1 d2 n1 n2 fuel (idx1 + 1) idx2
                  (if idx1 + 1 < n1 then d1 (idx1 + 1) else d1 idx1) (d2 idx2)
            else d2 idx2 :: bmGo comp d1 d2 n1 n2 fuel idx1 (idx2 + 1)
                  (d1 idx1) (if idx2 + 1 < n2 then d2 (idx2 + 1) else d2 idx2) := by
  constructor
  · unfold bounded_merge
    rw [bmGo_length]
    simp
  · intro d1 d2 n1 n2 fuel idx1 idx2 h1 h2
    have h12 : ¬ (n1 ≤ idx1 ∧ n2 ≤ idx2) := by omega
    have h1' : ¬ n1 ≤ idx1 := by omega
    have h2' : ¬ n2 ≤ idx2 := by omega
    simp only [bmGo, if_neg h12, if_neg h1', if_neg h2']

/-- Witness for C3 at a concrete input: two sorted ranges, three steps,
first comparison takes from range 1. -/
theorem claim3_bounded_merge_steps_witness :
    (bounded_merge Nat.blt 3 [5, 7] [6] 0 0).length = min 3 ([5, 7].length + [6].length)
    ∧ bmGo Nat.blt (fun i => List.getD [5, 7] i 0) (fun i => List.getD [6] i 0)
        2 1 3 0 0 (List.getD [5, 7] 0 0) (List.getD [6] 0 0)
      = if Nat.blt (List.getD [6] 0 0) (List.getD [5, 7] 0 0) = false
        then List.getD [5, 7] 0 0 ::
              bmGo Nat.blt (fun i => List.getD [5, 7] i 0) (fun i => List.getD [6] i 0)
                2 1 2 1 0
                (if 0 + 1 < 2 then List.getD [5, 7] (0 + 1) 0 else List.getD [5, 7] 0 0)
                (List.getD [6] 0 0)
        else List.getD [6] 0 0 ::
              bmGo Nat.blt (fun i => List.getD [5, 7] i 0) (fun i => List.getD [6] i 0)
                2 1 2 0 1
                (List.getD [5, 7] 0 0)
                (if 0 + 1 < 1 then List.getD [6] (0 + 1) 0 else List.getD [6] 0 0) :=
  ⟨(claim3_bounded_merge_steps Nat.blt 3 [5, 7] [6] 0 0).1,
   (claim3_bounded_merge_steps Nat.blt 3 [5, 7] [6] 0 0).2
     (fun i => List.getD [5, 7] i 0) (fun i => List.getD [6] i 0) 2 1 2 0 0
     (by decide) (by decide)⟩

/-- Claim C2 (code bug): with sorted inputs `[1]` and `[2, 3]` and the
strict order on naturals, `bounded_merge` emits `[1, 2, 2]` — after range 1
is exhausted the register `b` is emitted and `idx2` advanced without
reloading `b` (merge.cu lines 65-69), so the stale value repeats — which is
not a permutation of the two inputs, contradicting the claimed multiset
union (and the reference `thrust::merge` asserted by `validate()` in the
same file). -/
theorem claim2_merge_failing_input :
    bounded_merge Nat.blt 3 [1] [2, 3] 0 0 = [1, 2, 2]
    ∧ ¬ (bounded_merge Nat.blt 3 [1] [2, 3] 0 0).Perm ([1] ++ [2, 3]) := by
  constructor
  · decide
  · decide

/-- Claim C4 (code bug): a one-sided-empty `bounded_merge` is not a copy of
the nonempty range: the one-sided branches never reload the cached
register after advancing the index (merge.cu lines 65-69 and 70-74), so the
first element of the surviving range is written repeatedly. -/
theorem claim4_merge_failing_input :
    bounded_merge Nat.blt 2 ([] : List ℕ) [10, 20] 0 0 = [10, 10]
    ∧ bounded_merge Nat.blt 2 ([] : List ℕ) [10, 20] 0 0 ≠ [10, 20]
    ∧ bounded_merge Nat.blt 2 [10, 20] ([] : List ℕ) 0 0 = [10, 10]
    ∧ bounded_merge Nat.blt 2 [10, 20] ([] : List ℕ) 0 0 ≠ [10, 20] := by
  refine ⟨by decide, by decide, by decide, by decide⟩

/-- Claim C10: the co-rank pair of the merge-path search at diagonal `d`
satisfies `offset1 + offset2 = d` (with `offset1 = mp ≤ d` and
`offset2 = d - mp`, exactly the `local_offset2 - n1 = diag - mp` of
merge.cu line 132), the search is monotone in the diagonal, and the
per-agent output sub-ranges `[diag a, diag a + local_size a)` of
`bounded_inplace_merge` are pairwise disjoint and jointly cover the whole
output `[0, total)` with no gaps or overlaps — their concatenation in agent
order is exactly `range total`. -/
theorem claim10_merge_corank (comp : α → α → Bool) (l1 l2 : List α)
    (groupsize grainsize total : ℕ) (htot : total ≤ groupsize * grainsize) :
    (∀ d : ℕ, mergePath comp l1 l2 d ≤ d
        ∧ mergePath comp l1 l2 d + (d - mergePath comp l1 l2 d) = d)
    ∧ (∀ d d' : ℕ, d ≤ d' → mergePath comp l1 l2 d ≤ mergePath comp l1 l2 d')
    ∧ ((List.range groupsize).map
        (fun a => List.range' (bim_diag grainsize a)
          (bim_local_size grainsize total a))).flatten = List.range total := by
  refine ⟨fun d => ?_, fun d d' h => mergePath_mono comp l1 l2 h, ?_⟩
  · have h := mergePath_le comp l1 l2 d
    exact ⟨h, by omega⟩
  · simp only [bim_diag, bim_local_size]
    rw [join_blocks grainsize total groupsize]
    rw [Nat.mul_comm groupsize grainsize] at htot
    rw [min_eq_right htot]
    exact (List.range_eq_range' total).symm

/-- Witness for C10 at a concrete input. -/
theorem claim10_merge_corank_witness :
    (mergePath Nat.blt [1, 3] [2] 5 ≤ 5
      ∧ mergePath Nat.blt [1, 3] [2] 5 + (5 - mergePath Nat.blt [1, 3] [2] 5) = 5)
    ∧ mergePath Nat.blt [1, 3] [2] 2 ≤ mergePath Nat.blt [1, 3] [2] 3
    ∧ ((List.range 2).map
        (fun a => List.range' (bim_diag 2 a) (bim_local_size 2 3 a))).flatten
      = List.range 3 :=
  ⟨(claim10_merge_corank Nat.blt [1, 3] [2] 2 2 3 (by decide)).1 5,
   (claim10_merge_corank Nat.blt [1, 3] [2] 2 2 3 (by decide)).2.1 2 3 (by decide),
   (claim10_merge_corank Nat.blt [1, 3] [2] 2 2 3 (by decide)).2.2⟩

end Bulk
